import Mathlib

/-!
Verification of the pysrim coordination-and-merge core (src/srim/srim.py and
src/srim/merge.py) against its natural-language specification.

The Python code is shallowly embedded: pure fragments of the code become Lean
functions over `List Char` (one `Char` per latin-1 byte, a faithful stand-in
since latin-1 decoding is a bijection between bytes and the first 256 code
points), Python `int` becomes `Int`, fallible operations return `Option`, and
`while`/generator loops become fuel-indexed recursions (with fuel-adequacy
proved where the loop terminates).  File-system state is passed explicitly.
-/

namespace PySrim

/-! ### Character classes (Python `\s`, `\d` on bytes, `str.isdigit` range used) -/

/-- Python's `\s` for byte regexes / `str.split()` whitespace:
space, tab, newline, carriage return, vertical tab, form feed. -/
def isSpace (c : Char) : Bool :=
  c = ' ' || c = '\t' || c = '\n' || c = '\r' || c = '\x0b' || c = '\x0c'

/-- Python's `\d` for byte regexes: the ASCII digits. -/
def isDigit (c : Char) : Bool :=
  '0' ≤ c && c ≤ '9'

/-- The decimal digit character for `d < 10` (as produced by Python's
decimal formatting). -/
def digitChar (d : Nat) : Char :=
  match d with
  | 0 => '0' | 1 => '1' | 2 => '2' | 3 => '3' | 4 => '4'
  | 5 => '5' | 6 => '6' | 7 => '7' | 8 => '8' | _ => '9'

/-- Numeric value of a digit character (used to give meaning to digit runs). -/
def digitVal (c : Char) : Nat := c.toNat - 48

/-- The natural number denoted by a run of decimal digit characters. -/
def digitsToNat (ds : List Char) : Nat :=
  ds.foldl (fun a c => 10 * a + digitVal c) 0

/-- Decimal rendering of a natural number, fuel-indexed so that it evaluates
in the kernel (`natToDigits` supplies adequate fuel). -/
def natToDigitsAux : Nat → Nat → List Char
  | 0, _ => []
  | fuel + 1, n =>
    if n < 10 then [digitChar n]
    else natToDigitsAux fuel (n / 10) ++ [digitChar (n % 10)]

/-- Decimal rendering of a natural number (no leading zeros). -/
def natToDigits (n : Nat) : List Char := natToDigitsAux (n + 1) n

/-- Zero-pad a digit string on the left to width `w`
(Python's `0`-fill in a format spec). -/
def padTo (w : Nat) (ds : List Char) : List Char :=
  List.replicate (w - ds.length) '0' ++ ds

/-- Python's `int()` applied to a whitespace-free token: an optional sign
followed by at least one ASCII digit.  (Underscore digit grouping is not
modelled; the tokens in play never use it.) -/
def parseDigits (ds : List Char) : Option Nat :=
  if ds.isEmpty then none
  else if ds.all isDigit then some (digitsToNat ds) else none

/-- Python's `int()` on a token produced by `str.split()`. -/
def parseInt (cs : List Char) : Option Int :=
  match cs with
  | '-' :: ds => (parseDigits ds).map (fun n => -(n : Int))
  | '+' :: ds => (parseDigits ds).map (fun n => (n : Int))
  | ds => (parseDigits ds).map (fun n => (n : Int))

/-- Python's no-argument `str.split()`: split on runs of whitespace,
discarding empty pieces.  `acc` holds the current word, reversed. -/
def pySplitAux : List Char → List Char → List (List Char)
  | [], acc => if acc.isEmpty then [] else [acc.reverse]
  | c :: cs, acc =>
    if isSpace c then
      if acc.isEmpty then pySplitAux cs [] else acc.reverse :: pySplitAux cs []
    else pySplitAux cs (c :: acc)

/-- Python's `str.split()` with no separator argument. -/
def pySplit (cs : List Char) : List (List Char) := pySplitAux cs []

/-- Python's `str.split(sep)` for a one-character separator: empty pieces
are kept. -/
def splitOnChar (sep : Char) : List Char → List (List Char)
  | [] => [[]]
  | c :: cs =>
    match splitOnChar sep cs with
    | [] => [[]]
    | t :: ts => if c = sep then [] :: t :: ts else (c :: t) :: ts

/-! ### `CASCADES._get_total_ions` (src/srim/merge.py lines 63-71)

```python
trim_file = os.path.flatten(os.path.dirname(base_file), "TRIM.IN")
try:
    with open(trim_file, "r") as f:
        return int(f.read().split('\n')[2].split()[-3])
except (IndexError, ValueError, FileNotFoundError):
    print(f"Warning: Could not read total ions from ...")
    return 0
```

The file system is abstracted to the `Option String` content of the
`TRIM.IN` metadata file sitting next to the given raw history file
(`none` = the file does not exist, raising `FileNotFoundError`). -/

/-- Embedding of `CASCADES._get_total_ions`.  The `print` warning is not
modelled; all caught exceptions become the `0` fallback. -/
def get_total_ions (trimIn : Option String) : Int :=
  match trimIn with
  | none => 0
  | some content =>
    let chunks := splitOnChar '\n' content.toList
    match chunks.get? 2 with
    | none => 0
    | some line3 =>
      let toks := pySplit line3
      if 3 ≤ toks.length then
        match toks.get? (toks.length - 3) with
        | none => 0
        | some tok =>
          match parseInt tok with
          | some v => v
          | none => 0
      else 0

/-! ### `TRIM.fragment` (src/srim/srim.py lines 277-286)

```python
def fragment(self, step, total):
    remaining = total
    while remaining > 0:
        if step > remaining:
            yield remaining
            break
        else:
            remaining -= step
            yield step
```

The generator is embedded as a fuel-indexed loop returning the finite list of
yielded values, `none` meaning the loop has not terminated within the given
fuel.  `fragment` supplies `total.toNat` fuel, which is proved adequate
whenever `step > 0`; for `step ≤ 0` the loop provably exhausts every fuel. -/

/-- One unfolding of the `while remaining > 0` loop of `TRIM.fragment` per
unit of fuel (the final `yield remaining; break` consumes none). -/
def fragmentAux (step : Int) : Nat → Int → Option (List Int)
  | 0, remaining =>
    if remaining > 0 then
      if step > remaining then some [remaining] else none
    else some []
  | fuel + 1, remaining =>
    if remaining > 0 then
      if step > remaining then some [remaining]
      else (fragmentAux step fuel (remaining - step)).map (fun l => step :: l)
    else some []

/-- Embedding of `TRIM.fragment`: the full finite sequence of yielded
chunk sizes, or `none` if the generator never finishes. -/
def fragment (step total : Int) : Option (List Int) :=
  fragmentAux step total.toNat total

/-- The generator `TRIM.fragment step total`, run to exhaustion, terminates
within some fuel bound. -/
def fragmentTerminates (step total : Int) : Prop :=
  ∃ fuel l, fragmentAux step fuel total = some l

/-! ### `TRIM.find_folder` (src/srim/srim.py lines 123-134)

```python
os.makedirs(directory, exist_ok=True)
lock_path = os.path.flatten(directory, ".folder_lock")
with FileLock(lock_path):
    for i in count():
        folder_path = os.path.flatten(directory, str(i))
        if not os.path.exists(folder_path):
            os.makedirs(folder_path, exist_ok=True)
            return os.path.abspath(folder_path)
```

The category result path is abstracted to the list of integer-named entries
that already exist under it.  `FileLock` serializes callers on the same path,
so concurrent allocation is modelled as sequential calls on the evolving
entry list (the lock is the only synchronization point; see §4.3 of the
spec).  The unbounded `for i in count()` scan is embedded with fuel
`max(existing) + 2`, enough to reach the first absent integer. -/

/-- The scan `for i in count(): ...` of `TRIM.find_folder`, starting at `i`
with the given fuel. -/
def findFolderAux (existing : List Nat) : Nat → Nat → Option Nat
  | 0, _ => none
  | fuel + 1, i =>
    if i ∈ existing then findFolderAux existing fuel (i + 1) else some i

/-- Embedding of `TRIM.find_folder`: the integer name of the created slot. -/
def find_folder (existing : List Nat) : Option Nat :=
  findFolderAux existing (existing.foldr max 0 + 2) 0

/-! ### The working directory of `TRIM.run` (src/srim/srim.py lines 136-161)

```python
process_id = os.getpid()
...
# Create a unique directory for this fragment
process_directory = "/tmp/mytemp/" #os.path.flatten(f"/tmp/trim_{process_id}")
os.makedirs(process_directory, exist_ok=True)
```

The executed statement assigns the constant string; the per-process variant
is commented out.  The embedding keeps the fragment index and process id as
arguments to record that the result depends on neither. -/

/-- Embedding of the working-directory choice made by `TRIM.run` for fragment
`i` running in OS process `pid`. -/
def run_process_directory (i : Nat) (pid : Nat) : String :=
  "/tmp/mytemp/"

/-! ### `CASCADES._merge_collision_files` (src/srim/merge.py lines 73-133)

```python
if len(files) < 1:
    print("Error: No files provided."); return
if len(files) == 1:
    shutil.copy(files[0], output_file); return
history_marker = b"==========================  COLLISION HISTORY"
ion_number_pattern = re.compile(br"For Ion\s+(\d+)")
base_file = files[0]; additional_files = files[1:]
shutil.copy(base_file, output_file)
current_ion_number = self._get_total_ions(base_file)
for file_path in additional_files:
    with open(file_path, "rb") as f, open(output_file, "ab") as out_f:
        skipping = True
        header_lines_to_skip = 10
        for line in f:
            if skipping:
                if history_marker in line:
                    skipping = False
                    header_lines_to_skip = 9
                continue
            if header_lines_to_skip > 0:
                header_lines_to_skip -= 1
                continue
            match = ion_number_pattern.search(line)
            if match:
                current_ion_number += 1
                line = ion_number_pattern.sub(f"For Ion {current_ion_number:07d}".encode(), line)
            out_f.write(line)
```

A file is a list of lines, each line a `List Char` of latin-1 bytes (each
line keeps its trailing newline bytes, so concatenating lines is byte
concatenation).  The regex `For Ion\s+(\d+)` and its `search`/`sub` are
implemented literally over the character list. -/

/-- The literal `history_marker` byte string. -/
def markerChars : List Char := "==========================  COLLISION HISTORY".toList

/-- Python's `pat in line` substring test for byte strings. -/
def hasSub (pat : List Char) : List Char → Bool
  | [] => pat.isEmpty
  | c :: cs => pat.isPrefixOf (c :: cs) || hasSub pat cs

/-- The literal part `For Ion` of the pattern `For Ion\s+(\d+)`. -/
def ionLit : List Char := "For Ion".toList

/-- Match a literal character sequence at the head of the input, returning
the remainder. -/
def takeLit : List Char → List Char → Option (List Char)
  | [], cs => some cs
  | _ :: _, [] => none
  | p :: ps, c :: cs => if c = p then takeLit ps cs else none

/-- Attempt to match the regex `For Ion\s+(\d+)` anchored at the head of the
input: the literal, then one or more whitespace bytes, then one or more
digit bytes (both greedy, as in `re`).  Returns the captured number and the
remainder after the whole match. -/
def matchIonAt (cs : List Char) : Option (Nat × List Char) :=
  match takeLit ionLit cs with
  | none => none
  | some r =>
    if (r.takeWhile isSpace).isEmpty then none
    else
      let r2 := r.dropWhile isSpace
      let ds := r2.takeWhile isDigit
      if ds.isEmpty then none
      else some (digitsToNat ds, r2.dropWhile isDigit)

/-- `re.search` for `For Ion\s+(\d+)`: the value captured by the leftmost
match, if any. -/
def ionSearch : List Char → Option Nat
  | [] => none
  | c :: cs =>
    match matchIonAt (c :: cs) with
    | some (n, _) => some n
    | none => ionSearch cs

/-- Python's `f"{n:07d}"`: decimal, zero-filled to total width 7. -/
def fmt7 (n : Int) : List Char :=
  if n < 0 then '-' :: padTo 6 (natToDigits n.natAbs) else padTo 7 (natToDigits n.toNat)

/-- The replacement byte string `f"For Ion {n:07d}".encode()`. -/
def replIon (n : Int) : List Char := "For Ion ".toList ++ fmt7 n

/-- `re.sub` for `For Ion\s+(\d+)`: replace every leftmost-first
non-overlapping match by `replIon n`.  Fuel-indexed (each match consumes at
least one character); `ionSubChars` supplies the input length as fuel, which
is adequate. -/
def ionSubAux (n : Int) : Nat → List Char → List Char
  | 0, l => l
  | _ + 1, [] => []
  | fuel + 1, c :: cs =>
    match matchIonAt (c :: cs) with
    | some (_, rest) => replIon n ++ ionSubAux n fuel rest
    | none => c :: ionSubAux n fuel cs

/-- `ion_number_pattern.sub(f"For Ion {n:07d}".encode(), line)`. -/
def ionSubChars (n : Int) (l : List Char) : List Char := ionSubAux n l.length l

/-- A fragment's on-disk outputs, as far as the merge pass reads them: the
content of its `TRIM.IN` metadata file (`none` = absent) and the lines of
its `COLLISON.txt` raw history file. -/
structure Fragment where
  trimIn : Option String
  collision : List (List Char)

/-- The inner `for line in f` loop of `_merge_collision_files` for one
additional file: `skipping` / `toSkip` / `counter` are the loop's
`skipping`, `header_lines_to_skip`, `current_ion_number`.  Returns the final
counter and the lines appended to the output. -/
def appendLoop (skipping : Bool) (toSkip : Nat) (counter : Int) :
    List (List Char) → Int × List (List Char)
  | [] => (counter, [])
  | line :: ls =>
    if skipping then
      if hasSub markerChars line then appendLoop false 9 counter ls
      else appendLoop true toSkip counter ls
    else if toSkip > 0 then appendLoop skipping (toSkip - 1) counter ls
    else
      match ionSearch line with
      | some _ =>
        let c := counter + 1
        let r := appendLoop skipping toSkip c ls
        (r.1, ionSubChars c line :: r.2)
      | none =>
        let r := appendLoop skipping toSkip counter ls
        (r.1, line :: r.2)

/-- The `for file_path in additional_files` loop: thread
`current_ion_number` through the per-file passes, concatenating the appended
lines. -/
def mergeGo : Int → List Fragment → List (List Char)
  | _, [] => []
  | counter, f :: fs =>
    let r := appendLoop true 10 counter f.collision
    r.2 ++ mergeGo r.1 fs

/-- Embedding of `CASCADES._merge_collision_files`: the lines of the merged
output file (`none` when no input file is given and nothing is written). -/
def merge_collision_files (frags : List Fragment) : Option (List (List Char)) :=
  match frags with
  | [] => none
  | [f] => some f.collision
  | base :: rest =>
    some (base.collision ++ mergeGo (get_total_ions base.trimIn) rest)

/-! ### `CASCADES.generate_numpy_arrays` (src/srim/merge.py lines 135-174)

```python
positions = []
with open(merged_file, "rb") as f:
    for line in f.readlines():
        line = line.decode('latin-1')
        if line.endswith('Start of New Cascade  ³\r\n'):
            tokens = line.split(chr(179))[1:-1]
            positions.append([float(tokens[2]), float(tokens[3]), float(tokens[4])])
        elif line.startswith('Û 0'):
            tokens = line.split()[1:-1]
            positions.append([float(tokens[3]), float(tokens[4]), float(tokens[5])])
np_positions = np.array(positions)
np.save(npy_path, np_positions)
self.data[ion_symbol] = { "total_ions": ..., "collisions": np_positions / 10 }
```

Numeric values are modelled as exact rationals: Python's `float()` rounds a
decimal literal to binary, but every structural fact claimed about the
extractor (which lines yield triples, which token positions are read, the
division by 10) is independent of that rounding, so `ℚ` with an exact
decimal/scientific-notation parser is the faithful shallow embedding.
A `float()` `ValueError` or a `tokens[k]` `IndexError` aborts the whole
pass (nothing catches it), hence the outer `Option`. -/

/-- The terminal pattern of a cascade-start line (`chr(179)` = `³`). -/
def cascadeMark : List Char := "Start of New Cascade  ³\r\n".toList

/-- The fixed prefix of the other coordinate-bearing lines
(`chr(219)` = `Û`). -/
def dStart : List Char := "Û 0".toList

/-- Exponent suffix of a Python float literal: nothing, or `e`/`E`, an
optional sign, and at least one digit consuming the rest of the token. -/
def applyExp (base : ℚ) : List Char → Option ℚ
  | [] => some base
  | c :: rest =>
    if c = 'e' || c = 'E' then
      let signed : Bool × List Char :=
        match rest with
        | '+' :: ds => (false, ds)
        | '-' :: ds => (true, ds)
        | ds => (false, ds)
      match parseDigits signed.2 with
      | none => none
      | some e => some (if signed.1 then base / 10 ^ e else base * 10 ^ e)
    else none

/-- Unsigned part of a Python float literal: `digits`, `digits.`,
`digits.digits` or `.digits`, with an optional exponent. -/
def parseUnsigned (cs : List Char) : Option ℚ :=
  let ip := cs.takeWhile isDigit
  let r1 := cs.dropWhile isDigit
  match r1 with
  | '.' :: r2 =>
    let fp := r2.takeWhile isDigit
    let r3 := r2.dropWhile isDigit
    if ip.isEmpty && fp.isEmpty then none
    else applyExp ((digitsToNat ip : ℚ) + (digitsToNat fp : ℚ) / 10 ^ fp.length) r3
  | _ => if ip.isEmpty then none else applyExp (digitsToNat ip : ℚ) r1

/-- Python's `float()` on a token: strip surrounding whitespace, optional
sign, then a decimal literal.  (`inf`/`nan` spellings are not modelled; the
extractor's tokens are numeric.)  `none` models a raised `ValueError`. -/
def pyFloat (cs : List Char) : Option ℚ :=
  let s := ((cs.dropWhile isSpace).reverse.dropWhile isSpace).reverse
  match s with
  | '+' :: r => parseUnsigned r
  | '-' :: r => (parseUnsigned r).map (fun q => -q)
  | r => parseUnsigned r

/-- `[float(tokens[2]), float(tokens[3]), float(tokens[4])]` for
`tokens = line.split(chr(179))[1:-1]`: `none` models the uncaught
`IndexError`/`ValueError`. -/
def cascadeTokensTriple (line : List Char) : Option (ℚ × ℚ × ℚ) :=
  let toks := ((splitOnChar '³' line).drop 1).dropLast
  match toks.get? 2, toks.get? 3, toks.get? 4 with
  | some a, some b, some c =>
    match pyFloat a, pyFloat b, pyFloat c with
    | some x, some y, some z => some (x, y, z)
    | _, _, _ => none
  | _, _, _ => none

/-- `[float(tokens[3]), float(tokens[4]), float(tokens[5])]` for
`tokens = line.split()[1:-1]`. -/
def dTokensTriple (line : List Char) : Option (ℚ × ℚ × ℚ) :=
  let toks := ((pySplit line).drop 1).dropLast
  match toks.get? 3, toks.get? 4, toks.get? 5 with
  | some a, some b, some c =>
    match pyFloat a, pyFloat b, pyFloat c with
    | some x, some y, some z => some (x, y, z)
    | _, _, _ => none
  | _, _, _ => none

/-- One line of the extractor's scan: `some (some t)` appends triple `t`,
`some none` ignores the line, `none` models an uncaught
`ValueError`/`IndexError` aborting the pass. -/
def extractLine (line : List Char) : Option (Option (ℚ × ℚ × ℚ)) :=
  if cascadeMark.isSuffixOf line then (cascadeTokensTriple line).map some
  else if dStart.isPrefixOf line then (dTokensTriple line).map some
  else some none

/-- The `for line in f.readlines()` accumulation of `positions`. -/
def generate_positions : List (List Char) → Option (List (ℚ × ℚ × ℚ))
  | [] => some []
  | line :: ls =>
    match extractLine line with
    | none => none
    | some none => generate_positions ls
    | some (some p) => (generate_positions ls).map (fun ps => p :: ps)

/-- The two arrays `generate_numpy_arrays` produces for one category:
`saved` is the array written to `collision.dat.npy` (`np_positions`), and
`collisions` is the array placed in the returned `self.data` entry
(`np_positions / 10`, elementwise). -/
structure ExtractResult where
  saved : List (ℚ × ℚ × ℚ)
  collisions : List (ℚ × ℚ × ℚ)
  deriving DecidableEq

/-- `np_positions / 10`, spelled out per coordinate triple. -/
def scaleTriple (p : ℚ × ℚ × ℚ) : ℚ × ℚ × ℚ := (p.1 / 10, p.2.1 / 10, p.2.2 / 10)

/-- Embedding of the per-category body of `CASCADES.generate_numpy_arrays`. -/
def generate_numpy_arrays (lines : List (List Char)) : Option ExtractResult :=
  (generate_positions lines).map (fun ps =>
    { saved := ps
      collisions := ps.map scaleTriple })

/-- Claim-side description of the Record Extractor (C9): one coordinate
triple per cascade-terminated line, from its fixed token positions; one per
fixed-prefix line, from its other fixed token positions; all other lines
ignored; each coordinate divided by the fixed divisor 10. -/
def claimTriple (line : List Char) : Option (ℚ × ℚ × ℚ) :=
  if cascadeMark.isSuffixOf line then (cascadeTokensTriple line).map scaleTriple
  else if dStart.isPrefixOf line then (dTokensTriple line).map scaleTriple
  else none

/-- Concrete cascade-start line: tokens 2, 3, 4 of the `³`-separated slice
are 1, 2, 3. -/
def c9casc : List Char := "a³b³c³ 1 ³ 2 ³ 3 ³Start of New Cascade  ³\r\n".toList

/-- Concrete fixed-prefix line: whitespace tokens 3, 4, 5 of the slice are
7, 8, 9. -/
def c9d : List Char := "Û 0 junk 1 7 8 9 tail".toList

/-- A line matching neither pattern. -/
def c9plain : List Char := "plain line".toList

/-- The extraction result for the single cascade line `c9casc`. -/
def c10r : ExtractResult := ⟨[(1, 2, 3)], [(1, 2, 3)].map scaleTriple⟩

/-! ### Well-formedness of history-file bodies

The merge claims quantify over raw history files whose "embedded sequence
numbers" are meaningful.  A body line carries a sequence number when it
decomposes as `A ++ "For Ion" ++ spaces ++ digits ++ B` with no `'F'` in `A`
(so the leftmost match is this one) and `B` not starting with a digit (the
number token is maximal) — exactly the shape of real `COLLISON.txt` event
lines.  `ionLineCheck` decides this shape computationally. -/

/-- `true` when the list does not start with an ASCII digit. -/
def headNonDigit : List Char → Bool
  | [] => true
  | c :: _ => !(isDigit c)

/-- Decide whether a line is a well-formed sequence-number line: its leftmost
`'F'` starts a `For Ion\s+(\d+)` match whose digit run is maximal; returns
the embedded number and the tail after the match. -/
def ionLineCheck (line : List Char) : Option (Nat × List Char) :=
  match matchIonAt (line.dropWhile (fun c => c != 'F')) with
  | some (t, B) => if headNonDigit B then some (t, B) else none
  | none => none

/-- `bodyOk body t` holds when, scanning `body`, every line on which
`ion_number_pattern.search` fires is a well-formed sequence-number line, and
the embedded numbers are consecutive starting at `t`. -/
def bodyOk : List (List Char) → Nat → Bool
  | [], _ => true
  | line :: ls, t =>
    if (ionSearch line).isSome then
      ((ionLineCheck line).map (fun p => p.1) == some t) && bodyOk ls (t + 1)
    else bodyOk ls t

/-- A fragment whose raw history file has the standard layout: an arbitrary
marker-free preamble, the history-marker line, nine column-header lines, and
a body whose sequence-number lines are numbered consecutively from 1 —
`u` of them in total. -/
def FragOK (f : Fragment) (u : Nat) : Prop :=
  ∃ pre m k body, f.collision = pre ++ m :: (k ++ body) ∧
    (∀ l₀ ∈ pre, hasSub markerChars l₀ = false) ∧
    hasSub markerChars m = true ∧ k.length = 9 ∧
    bodyOk body 1 = true ∧ (body.filterMap ionSearch).length = u

/-- The per-file blocks appended by the `for file_path in additional_files`
loop (same recursion as `mergeGo`, keeping the blocks separate). -/
def mergeBlocks : Int → List Fragment → List (List (List Char))
  | _, [] => []
  | c, f :: fs =>
    (appendLoop true 10 c f.collision).2 ::
      mergeBlocks (appendLoop true 10 c f.collision).1 fs

/-! ### Concrete history files for witnesses and counterexamples -/

/-- Nine column-header lines, as skipped after the marker. -/
def fillerLines : List (List Char) :=
  (["h1", "h2", "h3", "h4", "h5", "h6", "h7", "h8", "h9"] : List String).map String.toList

/-- Body of the witness base fragment: two event lines numbered 1, 2. -/
def wBody1 : List (List Char) :=
  ["³ For Ion 0000001 a".toList, "³ For Ion 0000002 b".toList]

/-- Body of the witness second fragment: event lines 1 and 2 around a plain
line. -/
def wBody2 : List (List Char) :=
  ["³ For Ion 0000001 c".toList, "plain".toList, "³ For Ion 0000002 d".toList]

/-- Witness base fragment: metadata records 5 ions. -/
def wf1 : Fragment :=
  ⟨some "h\nh\n0 0 5 a b", markerChars :: fillerLines ++ wBody1⟩

/-- Witness second fragment (its own metadata is never read by the merge). -/
def wf2 : Fragment :=
  ⟨some "h\nh\n0 0 9 a b", markerChars :: fillerLines ++ wBody2⟩

/-- Counterexample base fragment: metadata records 2 ions, body has 2 event
lines. -/
def cf0 : Fragment :=
  ⟨some "h\nh\n0 0 2 a b", markerChars :: fillerLines ++ wBody1⟩

/-- Counterexample middle fragment: metadata records 5 ions but its body has
a single event line. -/
def cf1 : Fragment :=
  ⟨some "h\nh\n0 0 5 a b", markerChars :: fillerLines ++ ["³ For Ion 0000001 c".toList]⟩

/-- Counterexample last fragment: one event line. -/
def cf2 : Fragment :=
  ⟨some "h\nh\n0 0 3 a b", markerChars :: fillerLines ++ ["³ For Ion 0000001 d".toList]⟩

/-! ## Work Splitter lemmas and claims -/

/-- Fuel is irrelevant once the loop guard fails. -/
lemma fragmentAux_of_nonpos_remaining (step : Int) (fuel : Nat) (r : Int) (h : ¬ r > 0) :
    fragmentAux step fuel r = some [] := by
  cases fuel <;> simp only [fragmentAux, if_neg h]

/-- With positive `step`, fuel at least `remaining` is adequate, and the
yielded chunks have the contracted shape. -/
lemma fragmentAux_pos (step : Int) (hs : 0 < step) :
    ∀ (fuel : Nat) (remaining : Int), 0 < remaining → remaining ≤ fuel →
    ∃ l, fragmentAux step fuel remaining = some l ∧
      l.sum = remaining ∧ (∀ x ∈ l, 0 < x ∧ x ≤ step) ∧
      (∀ x ∈ l.dropLast, x = step) ∧
      l.getLast? = some (if step ∣ remaining then step else remaining % step) := by
  intro fuel
  induction fuel with
  | zero =>
    intro r hr hle
    exfalso
    have : (r : Int) ≤ ((0 : Nat) : Int) := hle
    omega
  | succ fuel ih =>
    intro r hr hle
    rw [fragmentAux, if_pos hr]
    by_cases hlt : step > r
    · rw [if_pos hlt]
      refine ⟨[r], rfl, by simp, ?_, by simp, ?_⟩
      · intro x hx
        simp only [List.mem_singleton] at hx
        subst hx
        exact ⟨hr, le_of_lt hlt⟩
      · have hnd : ¬ step ∣ r := by
          intro hd
          have := Int.le_of_dvd hr hd
          omega
        rw [if_neg hnd]
        simp only [List.getLast?_singleton, Option.some.injEq]
        rw [Int.emod_eq_of_lt (le_of_lt hr) hlt]
    · rw [if_neg hlt]
      push_neg at hlt
      by_cases hz : r - step = 0
      · have hrs : r = step := by omega
        have h0 : fragmentAux step fuel (r - step) = some [] :=
          fragmentAux_of_nonpos_remaining step fuel (r - step) (by omega)
        refine ⟨[step], by rw [h0]; rfl, by simp [hrs], ?_, by simp, ?_⟩
        · intro x hx
          simp only [List.mem_singleton] at hx
          subst hx
          exact ⟨hs, le_refl _⟩
        · rw [if_pos (by rw [hrs])]
          simp
      · have hpos : 0 < r - step := by omega
        have hfle : r - step ≤ (fuel : Int) := by
          push_cast at hle ⊢
          omega
        obtain ⟨l, hl, hsum, hmem, hinit, hlast⟩ := ih (r - step) hpos hfle
        refine ⟨step :: l, by rw [hl]; rfl, by simp [hsum], ?_, ?_, ?_⟩
        · intro x hx
          rcases List.mem_cons.mp hx with h | h
          · subst h; exact ⟨hs, le_refl _⟩
          · exact hmem x h
        · intro x hx
          cases l with
          | nil => simp at hlast
          | cons b t =>
            rw [List.dropLast_cons₂] at hx
            rcases List.mem_cons.mp hx with h | h
            · exact h
            · exact hinit x (by simpa using h)
        · cases l with
          | nil => simp at hlast
          | cons b t =>
            rw [List.getLast?_cons_cons]
            rw [show List.getLast? (b :: t) = some (if step ∣ r - step then step else (r - step) % step) from hlast]
            have hdd : (step ∣ r - step) ↔ (step ∣ r) := by
              constructor
              · intro h
                have := dvd_add h (dvd_refl step)
                simpa using this
              · intro h
                exact dvd_sub h (dvd_refl step)
            have hmm : (r - step) % step = r % step := by
              rw [Int.sub_emod, Int.emod_self, sub_zero, Int.emod_emod_of_dvd _ (dvd_refl step)]
            exact congrArg some (if_congr hdd rfl hmm)

/-- Unused-fuel monotonicity is not needed because round chunks are
reconstructed in `C3_work_splitter` by injectivity of `some`. -/
lemma fragment_total_spec (step total : Int) (hs : 0 < step) (ht : 0 < total) :
    ∃ l, fragment step total = some l ∧
      l.sum = total ∧ (∀ x ∈ l, 0 < x ∧ x ≤ step) ∧
      (∀ x ∈ l.dropLast, x = step) ∧
      l.getLast? = some (if step ∣ total then step else total % step) := by
  have := fragmentAux_pos step hs total.toNat total ht (by
    have := Int.self_le_toNat total
    exact_mod_cast this)
  exact this

/-- C3: for `step > 0` and `total > 0` the Work Splitter terminates and
yields positive chunks summing to `total`, each `≤ step`, all but the last
equal to `step`, the last being `step` when `step ∣ total` and
`total % step` otherwise; `total = 0` yields the empty sequence. -/
theorem C3_work_splitter :
    (∀ step total : Int, 0 < step → 0 < total → (fragment step total).isSome = true) ∧
    (∀ step total : Int, 0 < step → 0 < total → ∀ l, fragment step total = some l →
      l.sum = total ∧ (∀ x ∈ l, 0 < x ∧ x ≤ step) ∧
      (∀ x ∈ l.dropLast, x = step) ∧
      l.getLast? = some (if step ∣ total then step else total % step)) ∧
    (∀ step : Int, fragment step 0 = some []) := by
  refine ⟨?_, ?_, fun step => rfl⟩
  · intro step total hs ht
    obtain ⟨l, hl, -⟩ := fragment_total_spec step total hs ht
    rw [hl]; rfl
  · intro step total hs ht l hl
    obtain ⟨l', hl', hsum, hmem, hinit, hlast⟩ := fragment_total_spec step total hs ht
    rw [hl] at hl'
    obtain rfl : l = l' := by injection hl'
    exact ⟨hsum, hmem, hinit, hlast⟩

/-- Witness for C3 at `step = 100`, `total = 250`
(the spec's own end-to-end scenario, fragments `[100, 100, 50]`). -/
theorem C3_witness :
    (fragment 100 250).isSome = true ∧
    (([100, 100, 50] : List Int).sum = 250 ∧
      (∀ x ∈ ([100, 100, 50] : List Int), 0 < x ∧ x ≤ 100) ∧
      (∀ x ∈ ([100, 100, 50] : List Int).dropLast, x = 100) ∧
      ([100, 100, 50] : List Int).getLast? =
        some (if (100 : Int) ∣ 250 then 100 else 250 % 100)) ∧
    fragment 100 0 = some [] :=
  ⟨C3_work_splitter.1 100 250 (by norm_num) (by norm_num),
   C3_work_splitter.2.1 100 250 (by norm_num) (by norm_num) [100, 100, 50] (by decide),
   C3_work_splitter.2.2 100⟩

/-- With `step ≤ 0` the splitter's loop never terminates: every fuel bound
is exhausted. -/
lemma fragmentAux_nonpos (step : Int) (hs : step ≤ 0) :
    ∀ (fuel : Nat) (remaining : Int), 0 < remaining →
    fragmentAux step fuel remaining = none := by
  intro fuel
  induction fuel with
  | zero =>
    intro r hr
    rw [fragmentAux, if_pos hr, if_neg (by omega)]
  | succ fuel ih =>
    intro r hr
    rw [fragmentAux, if_pos hr, if_neg (by omega)]
    rw [ih (r - step) (by omega)]
    rfl

/-- C6 counterexample: at `step = 0`, `total = 1` the Work Splitter raises
nothing — its loop simply never terminates, so no `InvalidArgument`
condition is surfaced by the splitter. -/
theorem C6_counterexample : ¬ fragmentTerminates 0 1 := by
  rintro ⟨fuel, l, h⟩
  rw [fragmentAux_nonpos 0 (le_refl 0) fuel 1 (by norm_num)] at h
  exact Option.noConfusion h

/-- C6 amended: for every `step ≤ 0` and `total > 0` the Work Splitter's
generator does not fail — it diverges (the loop terminates within no fuel
bound), producing no `InvalidArgument` condition. -/
theorem C6_nonpos_step_diverges (step total : Int) (hs : step ≤ 0) (ht : 0 < total) :
    ¬ fragmentTerminates step total := by
  rintro ⟨fuel, l, h⟩
  rw [fragmentAux_nonpos step hs fuel total ht] at h
  exact Option.noConfusion h

/-- Witness for the amended C6 at `step = -1`, `total = 2`. -/
theorem C6_witness : ¬ fragmentTerminates (-1) 2 :=
  C6_nonpos_step_diverges (-1) 2 (by norm_num) (by norm_num)

/-! ## Unique Slot Allocator lemmas and claims -/

/-- The scan of `find_folder` returns the least integer `≥ start` with no
existing entry, provided some such integer is within fuel range. -/
lemma findFolderAux_correct (existing : List Nat) :
    ∀ (fuel start : Nat), (∃ j, j < fuel ∧ (start + j) ∉ existing) →
    ∃ i, findFolderAux existing fuel start = some i ∧ i ∉ existing ∧ start ≤ i ∧
      ∀ k, start ≤ k → k < i → k ∈ existing := by
  intro fuel
  induction fuel with
  | zero =>
    rintro start ⟨j, hj, -⟩
    omega
  | succ fuel ih =>
    rintro start ⟨j, hj, hnot⟩
    rw [findFolderAux]
    by_cases hmem : start ∈ existing
    · rw [if_pos hmem]
      have hj0 : j ≠ 0 := by
        rintro rfl
        simp at hnot
        exact hnot hmem
      obtain ⟨j', rfl⟩ : ∃ j', j = j' + 1 := ⟨j - 1, by omega⟩
      obtain ⟨i, hi, hni, hge, hleast⟩ :=
        ih (start + 1) ⟨j', by omega, by
          have : start + 1 + j' = start + (j' + 1) := by omega
          rw [this]; exact hnot⟩
      refine ⟨i, hi, hni, by omega, ?_⟩
      intro k hk1 hk2
      rcases Nat.eq_or_lt_of_le hk1 with h | h
      · rw [← h]; exact hmem
      · exact hleast k h hk2
    · rw [if_neg hmem]
      exact ⟨start, rfl, hmem, le_refl _, fun k hk1 hk2 => absurd (lt_of_le_of_lt hk1 hk2) (lt_irrefl _)⟩

/-- Every list element is bounded by `foldr max 0`. -/
lemma le_foldr_max (l : List Nat) : ∀ x ∈ l, x ≤ l.foldr max 0 := by
  induction l with
  | nil => intro x hx; simp at hx
  | cons a t ih =>
    intro x hx
    rcases List.mem_cons.mp hx with h | h
    · subst h; exact le_max_left _ _
    · exact le_trans (ih x h) (le_max_right _ _)

/-- C5: `find_folder` always returns the smallest non-negative integer with
no existing entry under the category path, creates it, and — the lock having
serialized callers on that path, so that each caller sees the entries created
before it — a subsequent allocation on the same path never returns the same
integer. -/
theorem C5_unique_slot_allocator :
    (∀ existing : List Nat, (find_folder existing).isSome = true) ∧
    (∀ (existing : List Nat) (i : Nat), find_folder existing = some i →
      i ∉ existing ∧ (∀ k, k < i → k ∈ existing) ∧
      ∀ j, find_folder (i :: existing) = some j → j ≠ i) := by
  have main : ∀ existing : List Nat,
      ∃ i, find_folder existing = some i ∧ i ∉ existing ∧
        ∀ k, k < i → k ∈ existing := by
    intro existing
    obtain ⟨i, hi, hni, -, hleast⟩ := findFolderAux_correct existing
      (existing.foldr max 0 + 2) 0
      ⟨existing.foldr max 0 + 1, by omega, by
        intro hmem
        have := le_foldr_max existing _ hmem
        omega⟩
    exact ⟨i, hi, hni, fun k hk => hleast k (Nat.zero_le k) hk⟩
  refine ⟨?_, ?_⟩
  · intro existing
    obtain ⟨i, hi, -⟩ := main existing
    rw [hi]; rfl
  · intro existing i hi
    obtain ⟨i', hi', hni, hleast⟩ := main existing
    rw [hi] at hi'
    obtain rfl : i = i' := by injection hi'
    refine ⟨hni, hleast, ?_⟩
    intro j hj
    obtain ⟨j', hj', hnj, -⟩ := main (i :: existing)
    rw [hj] at hj'
    obtain rfl : j = j' := by injection hj'
    intro hji
    exact hnj (hji ▸ List.mem_cons_self i existing)

/-- Witness for C5: with entries `0, 1, 3` present, slot `2` is allocated;
allocating again afterwards yields `4 ≠ 2`. -/
theorem C5_witness : (2 ∉ ([0, 1, 3] : List Nat)) ∧ ((4 : Nat) ≠ 2) :=
  ⟨(C5_unique_slot_allocator.2 [0, 1, 3] 2 (by decide)).1,
   (C5_unique_slot_allocator.2 [0, 1, 3] 2 (by decide)).2.2 4 (by decide)⟩

/-! ## Isolated Run Executor claim -/

/-- C2 (code bug): `TRIM.run` assigns every fragment, in every process, the
same hard-coded working directory `/tmp/mytemp/` — two distinct concurrently
running fragments share it, contradicting both the claim and the function's
own comment. -/
theorem C2_shared_working_directory :
    run_process_directory 0 1001 = run_process_directory 1 1002 ∧
    run_process_directory 0 1001 = "/tmp/mytemp/" :=
  ⟨rfl, rfl⟩

/-! ## Metadata File recovery claim -/

/-- C7: recovering a fragment's unit count from its `TRIM.IN` metadata file
returns the integer value of the third-to-last whitespace-separated token of
the file's third line; when the file is absent, has fewer than three lines,
lacks that token, or the token is not an integer, it returns `0` instead of
raising (the caught exception is logged as a warning, not re-raised). -/
theorem C7_metadata_recovery :
    (get_total_ions none = 0) ∧
    (∀ (content : String) (line3 tok : List Char) (v : Int),
      (splitOnChar '\n' content.toList).get? 2 = some line3 →
      3 ≤ (pySplit line3).length →
      (pySplit line3).get? ((pySplit line3).length - 3) = some tok →
      parseInt tok = some v →
      get_total_ions (some content) = v) ∧
    (∀ content : String, (splitOnChar '\n' content.toList).length < 3 →
      get_total_ions (some content) = 0) ∧
    (∀ (content : String) (line3 : List Char),
      (splitOnChar '\n' content.toList).get? 2 = some line3 →
      (pySplit line3).length < 3 →
      get_total_ions (some content) = 0) ∧
    (∀ (content : String) (line3 tok : List Char),
      (splitOnChar '\n' content.toList).get? 2 = some line3 →
      3 ≤ (pySplit line3).length →
      (pySplit line3).get? ((pySplit line3).length - 3) = some tok →
      parseInt tok = none →
      get_total_ions (some content) = 0) := by
  refine ⟨rfl, ?_, ?_, ?_, ?_⟩
  · intro content line3 tok v h2 hlen htok hparse
    simp only [get_total_ions, h2, if_pos hlen, htok, hparse]
  · intro content hshort
    have h2 : (splitOnChar '\n' content.toList).get? 2 = none :=
      List.get?_eq_none.mpr (by omega)
    simp only [get_total_ions, h2]
  · intro content line3 h2 hshort
    simp only [get_total_ions, h2, if_neg (by omega : ¬ 3 ≤ (pySplit line3).length)]
  · intro content line3 tok h2 hlen htok hparse
    simp only [get_total_ions, h2, if_pos hlen, htok, hparse]

/-- Witness for C7: a well-formed metadata file yields its recorded count
`5`; an absent file, a two-line file, a short third line, and a non-integer
token each yield `0`. -/
theorem C7_witness :
    get_total_ions (some "h\nh\n 11 22 5 x y") = 5 ∧
    get_total_ions none = 0 ∧
    get_total_ions (some "h\nh") = 0 ∧
    get_total_ions (some "h\nh\na b") = 0 ∧
    get_total_ions (some "h\nh\n 11 z2 5x. x y") = 0 :=
  ⟨C7_metadata_recovery.2.1 "h\nh\n 11 22 5 x y" " 11 22 5 x y".toList "5".toList 5
      (by decide) (by decide) (by decide) (by decide),
   C7_metadata_recovery.1,
   C7_metadata_recovery.2.2.1 "h\nh" (by decide),
   C7_metadata_recovery.2.2.2.1 "h\nh\na b" "a b".toList (by decide) (by decide),
   C7_metadata_recovery.2.2.2.2 "h\nh\n 11 z2 5x. x y" " 11 z2 5x. x y".toList "5x.".toList
      (by decide) (by decide) (by decide) (by decide)⟩

/-! ## Merge Engine: single-input claim -/

/-- C8: merging a list containing exactly one raw history file copies that
file verbatim — the output lines are byte-identical to the input's, with no
sequence-number rewriting applied. -/
theorem C8_single_file_merge (f : Fragment) :
    merge_collision_files [f] = some f.collision := rfl

/-- Witness for C8 at a concrete fragment. -/
theorem C8_witness : merge_collision_files [Fragment.mk none ["x".toList]]
    = some ["x".toList] :=
  C8_single_file_merge ⟨none, ["x".toList]⟩

/-! ## Digit-string lemmas -/

lemma digitChar_isDigit (d : Nat) : isDigit (digitChar d) = true := by
  rcases d with _ | _ | _ | _ | _ | _ | _ | _ | _ | d <;> rfl

lemma digitVal_digitChar (d : Nat) (h : d < 10) : digitVal (digitChar d) = d := by
  interval_cases d <;> rfl

lemma digitsToNat_append_singleton (xs : List Char) (c : Char) :
    digitsToNat (xs ++ [c]) = 10 * digitsToNat xs + digitVal c := by
  simp [digitsToNat, List.foldl_append]

lemma natToDigitsAux_spec : ∀ (fuel n : Nat), n < fuel →
    natToDigitsAux fuel n ≠ [] ∧ (∀ c ∈ natToDigitsAux fuel n, isDigit c = true) ∧
    digitsToNat (natToDigitsAux fuel n) = n := by
  intro fuel
  induction fuel with
  | zero => intro n h; omega
  | succ fuel ih =>
    intro n h
    by_cases h10 : n < 10
    · rw [natToDigitsAux, if_pos h10]
      refine ⟨by simp, ?_, ?_⟩
      · intro c hc
        simp only [List.mem_singleton] at hc
        subst hc
        exact digitChar_isDigit n
      · simp [digitsToNat, digitVal_digitChar n h10]
    · rw [natToDigitsAux, if_neg h10]
      have hdiv : n / 10 < fuel := by omega
      obtain ⟨hne, hdig, hval⟩ := ih (n / 10) hdiv
      refine ⟨by simp, ?_, ?_⟩
      · intro c hc
        rcases List.mem_append.mp hc with hc | hc
        · exact hdig c hc
        · simp only [List.mem_singleton] at hc
          subst hc
          exact digitChar_isDigit (n % 10)
      · rw [digitsToNat_append_singleton, hval, digitVal_digitChar (n % 10) (by omega)]
        omega

lemma natToDigits_spec (n : Nat) :
    natToDigits n ≠ [] ∧ (∀ c ∈ natToDigits n, isDigit c = true) ∧
    digitsToNat (natToDigits n) = n :=
  natToDigitsAux_spec (n + 1) n (by omega)

lemma digitsToNat_replicate_zero (k : Nat) (ds : List Char) :
    digitsToNat (List.replicate k '0' ++ ds) = digitsToNat ds := by
  have hz : ∀ j, List.foldl (fun a c => 10 * a + digitVal c) 0 (List.replicate j '0') = 0 := by
    intro j
    induction j with
    | zero => rfl
    | succ j ihj => simpa [List.replicate_succ, digitVal] using ihj
  simp [digitsToNat, List.foldl_append, hz k]

lemma pad7_spec (n : Nat) :
    padTo 7 (natToDigits n) ≠ [] ∧ (∀ c ∈ padTo 7 (natToDigits n), isDigit c = true) ∧
    digitsToNat (padTo 7 (natToDigits n)) = n := by
  obtain ⟨hne, hdig, hval⟩ := natToDigits_spec n
  refine ⟨?_, ?_, ?_⟩
  · intro h
    exact hne (List.append_eq_nil.mp h).2
  · intro c hc
    rcases List.mem_append.mp hc with hc | hc
    · rw [List.eq_of_mem_replicate hc]; rfl
    · exact hdig c hc
  · rw [padTo, digitsToNat_replicate_zero, hval]

lemma digit_not_space (c : Char) (h : isDigit c = true) : isSpace c = false := by
  by_contra hc
  have hs : isSpace c = true := by
    cases hx : isSpace c
    · exact absurd hx hc
    · rfl
  simp only [isSpace, Bool.or_eq_true, decide_eq_true_eq] at hs
  rcases hs with ((((rfl | rfl) | rfl) | rfl) | rfl) | rfl <;> simp [isDigit] at h

/-! ## takeWhile/dropWhile helper lemmas -/

lemma takeWhile_all_append (p : Char → Bool) :
    ∀ (l y : List Char), (∀ c ∈ l, p c = true) →
    (l ++ y).takeWhile p = l ++ y.takeWhile p := by
  intro l
  induction l with
  | nil => intro y h; rfl
  | cons a t ih =>
    intro y h
    have ha : p a = true := h a (List.mem_cons_self a t)
    simp only [List.cons_append, List.takeWhile_cons, ha, if_true]
    rw [ih y (fun c hc => h c (List.mem_cons_of_mem a hc))]

lemma dropWhile_all_append (p : Char → Bool) :
    ∀ (l y : List Char), (∀ c ∈ l, p c = true) →
    (l ++ y).dropWhile p = y.dropWhile p := by
  intro l
  induction l with
  | nil => intro y h; rfl
  | cons a t ih =>
    intro y h
    have ha : p a = true := h a (List.mem_cons_self a t)
    simp only [List.cons_append, List.dropWhile_cons, ha, if_true]
    exact ih y (fun c hc => h c (List.mem_cons_of_mem a hc))

lemma takeWhile_eq_nil_of_head (p : Char → Bool) (y : List Char)
    (h : ∀ c ∈ y.head?, p c = false) : y.takeWhile p = [] := by
  cases y with
  | nil => rfl
  | cons a t =>
    have := h a rfl
    simp [List.takeWhile_cons, this]

lemma dropWhile_eq_self_of_head (p : Char → Bool) (y : List Char)
    (h : ∀ c ∈ y.head?, p c = false) : y.dropWhile p = y := by
  cases y with
  | nil => rfl
  | cons a t =>
    have := h a rfl
    simp [List.dropWhile_cons, this]

lemma dropWhile_head_false (p : Char → Bool) :
    ∀ (l : List Char) (c : Char) (r : List Char), l.dropWhile p = c :: r → p c = false := by
  intro l
  induction l with
  | nil => intro c r h; simp at h
  | cons a t ih =>
    intro c r h
    rw [List.dropWhile_cons] at h
    by_cases ha : p a = true
    · rw [if_pos ha] at h
      exact ih c r h
    · rw [if_neg ha] at h
      obtain ⟨rfl, -⟩ : a = c ∧ t = r := by
        constructor <;> [exact (List.cons.injEq a t c r ▸ h).1; exact (List.cons.injEq a t c r ▸ h).2]
      cases hx : p a
      · rfl
      · exact absurd hx ha

lemma mem_takeWhile_pred {p : Char → Bool} :
    ∀ (l : List Char) (c : Char), c ∈ l.takeWhile p → p c = true := by
  intro l
  induction l with
  | nil => intro c h; simp at h
  | cons a t ih =>
    intro c h
    rw [List.takeWhile_cons] at h
    by_cases ha : p a = true
    · rw [if_pos ha] at h
      rcases List.mem_cons.mp h with rfl | h
      · exact ha
      · exact ih c h
    · rw [if_neg ha] at h
      simp at h

/-! ## `For Ion` pattern lemmas -/

lemma takeLit_some : ∀ (lit cs r : List Char), takeLit lit cs = some r → cs = lit ++ r := by
  intro lit
  induction lit with
  | nil =>
    intro cs r h
    rw [takeLit] at h
    injection h
  | cons p ps ih =>
    intro cs r h
    cases cs with
    | nil => rw [takeLit] at h; exact absurd h (by simp)
    | cons c cs' =>
      rw [takeLit] at h
      by_cases hc : c = p
      · rw [if_pos hc] at h
        subst hc
        rw [List.cons_append]
        exact congrArg (c :: ·) (ih cs' r h)
      · rw [if_neg hc] at h
        exact absurd h (by simp)

lemma takeLit_self : ∀ (lit r : List Char), takeLit lit (lit ++ r) = some r := by
  intro lit
  induction lit with
  | nil => intro r; rfl
  | cons p ps ih =>
    intro r
    rw [List.cons_append, takeLit, if_pos rfl]
    exact ih r

lemma matchIonAt_nil : matchIonAt [] = none := rfl

lemma matchIonAt_cons_ne_F (c : Char) (cs : List Char) (h : ¬ c = 'F') :
    matchIonAt (c :: cs) = none := by
  have hlit : takeLit ionLit (c :: cs) = none := by
    show takeLit ('F' :: "or Ion".toList) (c :: cs) = none
    rw [takeLit, if_neg h]
  unfold matchIonAt
  rw [hlit]

lemma matchIonAt_eq_of_takeLit (l r : List Char) (hlit : takeLit ionLit l = some r) :
    matchIonAt l =
      if (r.takeWhile isSpace).isEmpty = true then none
      else if ((r.dropWhile isSpace).takeWhile isDigit).isEmpty = true then none
      else some (digitsToNat ((r.dropWhile isSpace).takeWhile isDigit),
                 (r.dropWhile isSpace).dropWhile isDigit) := by
  unfold matchIonAt
  rw [hlit]

lemma matchIonAt_some_decomp (l : List Char) (t : Nat) (B : List Char)
    (h : matchIonAt l = some (t, B)) :
    ∃ S D, l = ionLit ++ (S ++ (D ++ B)) ∧ S ≠ [] ∧ D ≠ [] ∧
      (∀ c ∈ S, isSpace c = true) ∧ (∀ c ∈ D, isDigit c = true) ∧ digitsToNat D = t := by
  cases hlit : takeLit ionLit l with
  | none =>
    unfold matchIonAt at h
    rw [hlit] at h
    exact absurd h (by simp)
  | some r =>
    rw [matchIonAt_eq_of_takeLit l r hlit] at h
    by_cases hsp : (r.takeWhile isSpace).isEmpty = true
    · rw [if_pos hsp] at h; exact absurd h (by simp)
    · rw [if_neg hsp] at h
      by_cases hds : ((r.dropWhile isSpace).takeWhile isDigit).isEmpty = true
      · rw [if_pos hds] at h; exact absurd h (by simp)
      · rw [if_neg hds] at h
        simp only [Option.some.injEq, Prod.mk.injEq] at h
        obtain ⟨ht, hB⟩ := h
        refine ⟨r.takeWhile isSpace, (r.dropWhile isSpace).takeWhile isDigit, ?_, ?_, ?_, ?_, ?_, ht⟩
        · rw [takeLit_some ionLit l r hlit]
          rw [← hB]
          rw [List.takeWhile_append_dropWhile, List.takeWhile_append_dropWhile]
        · intro hnil; rw [hnil] at hsp; exact hsp rfl
        · intro hnil; rw [hnil] at hds; exact hds rfl
        · intro c hc; exact mem_takeWhile_pred r c hc
        · intro c hc; exact mem_takeWhile_pred _ c hc

lemma matchIonAt_some_length (l : List Char) (t : Nat) (B : List Char)
    (h : matchIonAt l = some (t, B)) : B.length < l.length := by
  obtain ⟨S, D, rfl, hS, hD, -, -, -⟩ := matchIonAt_some_decomp l t B h
  have hS1 : 0 < S.length := List.length_pos.mpr hS
  have hD1 : 0 < D.length := List.length_pos.mpr hD
  simp [List.length_append]
  omega

lemma fmt7_natCast (n : Nat) : fmt7 (n : Int) = padTo 7 (natToDigits n) := by
  rw [fmt7, if_neg (by omega : ¬ ((n : Int) < 0))]
  simp

lemma matchIonAt_replIon (n : Nat) (Y : List Char) (hY : headNonDigit Y = true) :
    matchIonAt (replIon (n : Int) ++ Y) = some (n, Y) := by
  obtain ⟨hne, hdig, hval⟩ := pad7_spec n
  have hre : replIon (n : Int) ++ Y = ionLit ++ (' ' :: (padTo 7 (natToDigits n) ++ Y)) := by
    rw [replIon, fmt7_natCast]
    show ("For Ion ".toList ++ padTo 7 (natToDigits n)) ++ Y = _
    have hFI : "For Ion ".toList = ionLit ++ [' '] := rfl
    rw [hFI]
    simp [List.append_assoc]
  have hYhead : ∀ c ∈ Y.head?, isDigit c = false := by
    intro c hc
    cases Y with
    | nil => simp at hc
    | cons y ys =>
      simp only [List.head?_cons, Option.mem_def, Option.some.injEq] at hc
      subst hc
      simp only [headNonDigit, Bool.not_eq_true'] at hY
      exact hY
  have hPhead : ∀ c ∈ (padTo 7 (natToDigits n) ++ Y).head?, isSpace c = false := by
    intro c hc
    cases hP : padTo 7 (natToDigits n) with
    | nil => exact absurd hP hne
    | cons p0 ps =>
      rw [hP] at hc
      simp only [List.cons_append, List.head?_cons, Option.mem_def, Option.some.injEq] at hc
      rw [← hc]
      exact digit_not_space p0 (hdig p0 (by rw [hP]; exact List.mem_cons_self p0 ps))
  rw [hre]
  rw [matchIonAt_eq_of_takeLit _ _ (takeLit_self ionLit _)]
  rw [List.takeWhile_cons]
  rw [if_pos (by decide : isSpace ' ' = true)]
  rw [takeWhile_eq_nil_of_head isSpace _ hPhead]
  rw [List.dropWhile_cons, if_pos (by decide : isSpace ' ' = true)]
  rw [dropWhile_eq_self_of_head isSpace _ hPhead]
  rw [takeWhile_all_append isDigit _ Y hdig, takeWhile_eq_nil_of_head isDigit Y hYhead]
  rw [dropWhile_all_append isDigit _ Y hdig, dropWhile_eq_self_of_head isDigit Y hYhead]
  rw [if_neg (by simp : ¬ (([' '] : List Char).isEmpty = true))]
  rw [List.append_nil]
  rw [if_neg (by simp [hne] : ¬ ((padTo 7 (natToDigits n)).isEmpty = true))]
  rw [hval]

lemma ionSearch_eq_of_match (l : List Char) (t : Nat) (B : List Char)
    (h : matchIonAt l = some (t, B)) : ionSearch l = some t := by
  cases l with
  | nil => rw [matchIonAt_nil] at h; exact absurd h (by simp)
  | cons c cs =>
    rw [ionSearch, h]

lemma ionSearch_append_no_F : ∀ (A R : List Char), (∀ a ∈ A, a ≠ 'F') →
    ionSearch (A ++ R) = ionSearch R := by
  intro A
  induction A with
  | nil => intro R h; rfl
  | cons a t ih =>
    intro R h
    have ha : ¬ a = 'F' := h a (List.mem_cons_self a t)
    rw [List.cons_append, ionSearch, matchIonAt_cons_ne_F a _ ha]
    exact ih R (fun c hc => h c (List.mem_cons_of_mem a hc))

/-! ## `re.sub` lemmas -/

lemma ionSubAux_fuel (n : Int) : ∀ (f1 : Nat) (l : List Char) (f2 : Nat),
    l.length ≤ f1 → l.length ≤ f2 → ionSubAux n f1 l = ionSubAux n f2 l := by
  intro f1
  induction f1 with
  | zero =>
    intro l f2 h1 h2
    have hl : l = [] := List.eq_nil_of_length_eq_zero (by omega)
    subst hl
    cases f2 <;> rfl
  | succ f1 ih =>
    intro l f2 h1 h2
    cases l with
    | nil => cases f2 <;> rfl
    | cons c cs =>
      cases f2 with
      | zero => simp at h2
      | succ f2 =>
        simp only [ionSubAux]
        cases hm : matchIonAt (c :: cs) with
        | some p =>
          obtain ⟨t, B⟩ := p
          have hlen := matchIonAt_some_length _ _ _ hm
          simp only [List.length_cons] at hlen h1 h2
          show replIon n ++ ionSubAux n f1 B = replIon n ++ ionSubAux n f2 B
          congr 1
          exact ih B f2 (by omega) (by omega)
        | none =>
          simp only [List.length_cons] at h1 h2
          show c :: ionSubAux n f1 cs = c :: ionSubAux n f2 cs
          congr 1
          exact ih cs f2 (by omega) (by omega)

lemma ionSubChars_nil (n : Int) : ionSubChars n [] = [] := rfl

lemma ionSubChars_cons_match (n : Int) (c : Char) (cs : List Char) (t : Nat) (B : List Char)
    (h : matchIonAt (c :: cs) = some (t, B)) :
    ionSubChars n (c :: cs) = replIon n ++ ionSubChars n B := by
  have hlen := matchIonAt_some_length _ _ _ h
  simp only [List.length_cons] at hlen
  rw [ionSubChars, List.length_cons, ionSubAux, h]
  show replIon n ++ ionSubAux n cs.length B = replIon n ++ ionSubChars n B
  congr 1
  exact ionSubAux_fuel n cs.length B B.length (by omega) (le_refl _)

lemma ionSubChars_cons_nomatch (n : Int) (c : Char) (cs : List Char)
    (h : matchIonAt (c :: cs) = none) :
    ionSubChars n (c :: cs) = c :: ionSubChars n cs := by
  rw [ionSubChars, List.length_cons, ionSubAux, h]
  rfl

lemma ionSub_append_no_F (n : Int) : ∀ (A R : List Char), (∀ a ∈ A, a ≠ 'F') →
    ionSubChars n (A ++ R) = A ++ ionSubChars n R := by
  intro A
  induction A with
  | nil => intro R h; rfl
  | cons a t ih =>
    intro R h
    have ha : ¬ a = 'F' := h a (List.mem_cons_self a t)
    rw [List.cons_append, ionSubChars_cons_nomatch n a _ (matchIonAt_cons_ne_F a _ ha),
      ih R (fun c hc => h c (List.mem_cons_of_mem a hc)), List.cons_append]

lemma headNonDigit_ionSub (n : Int) (B : List Char) (h : headNonDigit B = true) :
    headNonDigit (ionSubChars n B) = true := by
  cases B with
  | nil => rfl
  | cons c cs =>
    cases hm : matchIonAt (c :: cs) with
    | some p =>
      obtain ⟨t, B'⟩ := p
      rw [ionSubChars_cons_match n c cs t B' hm]
      rfl
    | none =>
      rw [ionSubChars_cons_nomatch n c cs hm]
      exact h

/-! ## Well-formed line lemmas -/

lemma ionLineCheck_parts (line : List Char) (t : Nat) (B : List Char)
    (h : ionLineCheck line = some (t, B)) :
    ∃ A R, line = A ++ R ∧ (∀ a ∈ A, a ≠ 'F') ∧ matchIonAt R = some (t, B) ∧
      headNonDigit B = true := by
  unfold ionLineCheck at h
  cases hm : matchIonAt (line.dropWhile (fun c => c != 'F')) with
  | none => rw [hm] at h; exact absurd h (by simp)
  | some p =>
    obtain ⟨t', B'⟩ := p
    rw [hm] at h
    replace h : (if headNonDigit B' = true then some (t', B') else none) = some (t, B) := h
    by_cases hB : headNonDigit B' = true
    · rw [if_pos hB] at h
      simp only [Option.some.injEq, Prod.mk.injEq] at h
      obtain ⟨rfl, rfl⟩ := h
      refine ⟨line.takeWhile (fun c => c != 'F'), line.dropWhile (fun c => c != 'F'),
        (List.takeWhile_append_dropWhile _ _).symm, ?_, hm, hB⟩
      intro a ha
      have := mem_takeWhile_pred line a ha
      simpa using this
    · rw [if_neg hB] at h
      exact absurd h (by simp)

lemma ionLineCheck_search (line : List Char) (t : Nat) (B : List Char)
    (h : ionLineCheck line = some (t, B)) : ionSearch line = some t := by
  obtain ⟨A, R, rfl, hA, hm, -⟩ := ionLineCheck_parts _ t B h
  rw [ionSearch_append_no_F A R hA]
  exact ionSearch_eq_of_match R t B hm

lemma ionLineCheck_sub (line : List Char) (t : Nat) (B : List Char)
    (h : ionLineCheck line = some (t, B)) (n : Nat) :
    ionSearch (ionSubChars (n : Int) line) = some n := by
  obtain ⟨A, R, rfl, hA, hm, hB⟩ := ionLineCheck_parts _ t B h
  rw [ionSub_append_no_F _ A R hA]
  cases R with
  | nil => rw [matchIonAt_nil] at hm; exact absurd hm (by simp)
  | cons c cs =>
    rw [ionSubChars_cons_match _ c cs t B hm]
    rw [ionSearch_append_no_F A _ hA]
    exact ionSearch_eq_of_match _ n _
      (matchIonAt_replIon n (ionSubChars (n : Int) B) (headNonDigit_ionSub _ B hB))

/-! ## `appendLoop` step lemmas -/

lemma appendLoop_nil (skipping : Bool) (toSkip : Nat) (c : Int) :
    appendLoop skipping toSkip c [] = (c, []) := rfl

lemma appendLoop_cons_marker (s : Nat) (c : Int) (m : List Char) (ls : List (List Char))
    (hm : hasSub markerChars m = true) :
    appendLoop true s c (m :: ls) = appendLoop false 9 c ls := by
  rw [appendLoop, if_pos rfl, if_pos hm]

lemma appendLoop_cons_nomarker (s : Nat) (c : Int) (m : List Char) (ls : List (List Char))
    (hm : hasSub markerChars m = false) :
    appendLoop true s c (m :: ls) = appendLoop true s c ls := by
  rw [appendLoop, if_pos rfl, if_neg (by simp [hm])]

lemma appendLoop_cons_skip (s : Nat) (c : Int) (line : List Char) (ls : List (List Char))
    (hpos : 0 < s) :
    appendLoop false s c (line :: ls) = appendLoop false (s - 1) c ls := by
  rw [appendLoop, if_neg (by simp), if_pos hpos]

lemma appendLoop_cons_some (c : Int) (line : List Char) (ls : List (List Char)) (k : Nat)
    (hs : ionSearch line = some k) :
    appendLoop false 0 c (line :: ls) =
      ((appendLoop false 0 (c + 1) ls).1,
        ionSubChars (c + 1) line :: (appendLoop false 0 (c + 1) ls).2) := by
  rw [appendLoop, if_neg (by simp), if_neg (by simp), hs]

lemma appendLoop_cons_none (c : Int) (line : List Char) (ls : List (List Char))
    (hs : ionSearch line = none) :
    appendLoop false 0 c (line :: ls) =
      ((appendLoop false 0 c ls).1, line :: (appendLoop false 0 c ls).2) := by
  rw [appendLoop, if_neg (by simp), if_neg (by simp), hs]

lemma appendLoop_skip_pre :
    ∀ (pre : List (List Char)), (∀ l₀ ∈ pre, hasSub markerChars l₀ = false) →
    ∀ (s : Nat) (c : Int) (rest : List (List Char)),
    appendLoop true s c (pre ++ rest) = appendLoop true s c rest := by
  intro pre
  induction pre with
  | nil => intro h s c rest; rfl
  | cons x t ih =>
    intro h s c rest
    rw [List.cons_append,
      appendLoop_cons_nomarker s c x _ (h x (List.mem_cons_self x t))]
    exact ih (fun l₀ hl => h l₀ (List.mem_cons_of_mem x hl)) s c rest

lemma appendLoop_skipN :
    ∀ (k : List (List Char)) (c : Int) (body : List (List Char)),
    appendLoop false k.length c (k ++ body) = appendLoop false 0 c body := by
  intro k
  induction k with
  | nil => intro c body; rfl
  | cons x t ih =>
    intro c body
    rw [List.cons_append, List.length_cons,
      appendLoop_cons_skip (t.length + 1) c x _ (by omega)]
    simpa using ih c body

/-! ## Body-phase correctness -/

/-- Processing a well-formed body in the non-skipping state: the counter
advances by the number of sequence-number lines, and every such line's
embedded number is rewritten from its original value `k` to `k + off`
(the counter having started at `t + off - 1` where `t` is the first
original number). -/
lemma appendLoop_body (off : Nat) :
    ∀ (body : List (List Char)) (t : Nat), bodyOk body t = true →
    (appendLoop false 0 ((t : Int) + off - 1) body).1
        = (t : Int) + off - 1 + (body.filterMap ionSearch).length ∧
    (appendLoop false 0 ((t : Int) + off - 1) body).2.filterMap ionSearch
        = (body.filterMap ionSearch).map (fun k => k + off) := by
  intro body
  induction body with
  | nil => intro t ht; simp [appendLoop_nil]
  | cons line ls ih =>
    intro t ht
    cases hs : ionSearch line with
    | some k =>
      rw [bodyOk, hs] at ht
      simp only [Option.isSome_some, if_true, Bool.and_eq_true, beq_iff_eq] at ht
      obtain ⟨hchk, htl⟩ := ht
      obtain ⟨⟨t', B⟩, hB, ht'⟩ := Option.map_eq_some'.mp hchk
      simp only at ht'
      subst ht'
      have hsearch : ionSearch line = some t' := ionLineCheck_search line t' B hB
      have hk : k = t' := by
        rw [hs] at hsearch
        injection hsearch
      subst hk
      rw [appendLoop_cons_some _ _ _ k hs]
      have hcst : ((k : Int) + off - 1) + 1 = ((k + off : Nat) : Int) := by push_cast; ring
      rw [hcst]
      obtain ⟨ih1, ih2⟩ := ih (k + 1) htl
      have hcst2 : ((k + 1 : Nat) : Int) + off - 1 = ((k + off : Nat) : Int) := by push_cast; ring
      rw [hcst2] at ih1 ih2
      have hsub : ionSearch (ionSubChars ((k + off : Nat) : Int) line) = some (k + off) :=
        ionLineCheck_sub line k B hB (k + off)
      constructor
      · show (appendLoop false 0 ((k + off : Nat) : Int) ls).1 = _
        rw [ih1]
        simp only [List.filterMap_cons, hs, hsub, List.length_cons]
        push_cast
        ring
      · show (ionSubChars ((k + off : Nat) : Int) line
            :: (appendLoop false 0 ((k + off : Nat) : Int) ls).2).filterMap ionSearch = _
        simp only [List.filterMap_cons, hs, hsub, ih2, List.map_cons]
    | none =>
      rw [bodyOk, hs] at ht
      simp only [Option.isSome_none, Bool.false_eq_true, if_false] at ht
      rw [appendLoop_cons_none _ _ _ hs]
      obtain ⟨ih1, ih2⟩ := ih t ht
      constructor
      · show (appendLoop false 0 ((t : Int) + off - 1) ls).1 = _
        rw [ih1]
        simp only [List.filterMap_cons, hs]
      · show (line :: (appendLoop false 0 ((t : Int) + off - 1) ls).2).filterMap ionSearch = _
        simp only [List.filterMap_cons, hs, ih2]

lemma range'_map_add (c : Nat) : ∀ (s n : Nat),
    (List.range' s n).map (fun k => k + c) = List.range' (s + c) n := by
  intro s n
  induction n generalizing s with
  | zero => rfl
  | succ n ihn =>
    rw [List.range'_succ, List.map_cons, ihn (s + 1), List.range'_succ]
    have hsc : s + 1 + c = s + c + 1 := by omega
    rw [hsc]

lemma bodyOk_filterMap : ∀ (body : List (List Char)) (t : Nat), bodyOk body t = true →
    body.filterMap ionSearch = List.range' t (body.filterMap ionSearch).length := by
  intro body
  induction body with
  | nil => intro t ht; rfl
  | cons line ls ih =>
    intro t ht
    cases hs : ionSearch line with
    | some k =>
      rw [bodyOk, hs] at ht
      simp only [Option.isSome_some, if_true, Bool.and_eq_true, beq_iff_eq] at ht
      obtain ⟨hchk, htl⟩ := ht
      obtain ⟨⟨t', B⟩, hB, ht'⟩ := Option.map_eq_some'.mp hchk
      simp only at ht'
      subst ht'
      have hk : k = t' := by
        have hsearch := ionLineCheck_search line t' B hB
        rw [hs] at hsearch
        injection hsearch
      subst hk
      simp only [List.filterMap_cons, hs, List.length_cons]
      rw [List.range'_succ]
      congr 1
      exact ih (k + 1) htl
    | none =>
      rw [bodyOk, hs] at ht
      simp only [Option.isSome_none, Bool.false_eq_true, if_false] at ht
      simp only [List.filterMap_cons, hs]
      exact ih t ht

/-- Processing one whole well-formed additional file: the counter advances by
the file's sequence-number line count `u`, and the appended block's embedded
numbers are exactly `c+1, ..., c+u`. -/
lemma appendFile_spec (f : Fragment) (u : Nat) (h : FragOK f u) (c : Nat) :
    (appendLoop true 10 (c : Int) f.collision).1 = ((c + u : Nat) : Int) ∧
    (appendLoop true 10 (c : Int) f.collision).2.filterMap ionSearch
        = List.range' (c + 1) u := by
  obtain ⟨pre, m, k, body, hsplit, hpre, hm, hk, hbody, hu⟩ := h
  rw [hsplit]
  rw [appendLoop_skip_pre pre hpre 10 (c : Int) _]
  rw [appendLoop_cons_marker _ _ _ _ hm]
  have h9 : appendLoop false 9 (c : Int) (k ++ body) = appendLoop false 0 (c : Int) body := by
    rw [← hk]
    exact appendLoop_skipN k _ body
  rw [h9]
  have hc : ((1 : Nat) : Int) + c - 1 = (c : Int) := by push_cast; ring
  obtain ⟨h1, h2⟩ := appendLoop_body c body 1 hbody
  rw [hc] at h1 h2
  constructor
  · rw [h1, hu]
    push_cast
    ring
  · rw [h2, bodyOk_filterMap body 1 hbody, hu, range'_map_add c 1 u]
    have : 1 + c = c + 1 := by omega
    rw [this]

lemma mergeGo_eq_blocks : ∀ (fs : List Fragment) (c : Int),
    mergeGo c fs = (mergeBlocks c fs).flatten := by
  intro fs
  induction fs with
  | nil => intro c; rfl
  | cons f t ih =>
    intro c
    simp only [mergeGo, mergeBlocks, List.flatten_cons]
    rw [ih]

/-- The appended blocks for a list of well-formed additional files, starting
from counter `c`: block `j` carries the consecutive numbers starting right
after `c` plus the unit counts of the previous blocks. -/
lemma mergeBlocks_spec : ∀ (fs : List Fragment) (us : List Nat),
    List.Forall₂ FragOK fs us → ∀ (c : Nat),
    (mergeBlocks (c : Int) fs).length = us.length ∧
    (∀ (j : Nat) (bj : List (List Char)) (uj : Nat),
      (mergeBlocks (c : Int) fs).get? j = some bj → us.get? j = some uj →
      bj.filterMap ionSearch = List.range' (c + (us.take j).sum + 1) uj) := by
  intro fs us hall
  induction hall with
  | nil =>
    intro c
    exact ⟨rfl, by intro j bj uj h1 h2; simp [mergeBlocks] at h1⟩
  | @cons f u fs' us' hfu htail ih =>
    intro c
    obtain ⟨hcnt, hout⟩ := appendFile_spec f u hfu c
    obtain ⟨ihlen, ihidx⟩ := ih (c + u)
    constructor
    · simp only [mergeBlocks, hcnt, List.length_cons, ihlen]
    · intro j bj uj h1 h2
      simp only [mergeBlocks, hcnt] at h1
      cases j with
      | zero =>
        rw [List.get?_cons_zero] at h1 h2
        injection h1 with h1
        injection h2 with h2
        subst h1
        subst h2
        simpa using hout
      | succ j =>
        rw [List.get?_cons_succ] at h1 h2
        have := ihidx j bj uj h1 h2
        rw [this]
        simp only [List.take_succ_cons, List.sum_cons]
        congr 1
        omega

/-! ## Merge Engine offset claims -/

/-- C4: merging two raw history files whose bodies are well-formed with
consecutive embedded sequence numbers starting at 1, where the base file's
metadata records `u1` units, appends the second file's body with every
embedded sequence number rewritten from its original value `t` to `t + u1`. -/
theorem C4_merge_offset (f1 f2 : Fragment) (u1 : Nat)
    (pre1 : List (List Char)) (m1 : List Char) (k1 body1 : List (List Char))
    (pre2 : List (List Char)) (m2 : List Char) (k2 body2 : List (List Char))
    (h1 : get_total_ions f1.trimIn = (u1 : Int))
    (hsplit1 : f1.collision = pre1 ++ m1 :: (k1 ++ body1))
    (hpre1 : ∀ l₀ ∈ pre1, hasSub markerChars l₀ = false)
    (hm1 : hasSub markerChars m1 = true)
    (hk1 : k1.length = 9)
    (hbody1 : bodyOk body1 1 = true)
    (hsplit2 : f2.collision = pre2 ++ m2 :: (k2 ++ body2))
    (hpre2 : ∀ l₀ ∈ pre2, hasSub markerChars l₀ = false)
    (hm2 : hasSub markerChars m2 = true)
    (hk2 : k2.length = 9)
    (hbody2 : bodyOk body2 1 = true) :
    merge_collision_files [f1, f2]
        = some (f1.collision ++ (appendLoop true 10 (u1 : Int) f2.collision).2) ∧
    (appendLoop true 10 (u1 : Int) f2.collision).2.filterMap ionSearch
        = (body2.filterMap ionSearch).map (fun t => t + u1) := by
  constructor
  · have he : merge_collision_files [f1, f2]
        = some (f1.collision ++ mergeGo (get_total_ions f1.trimIn) [f2]) := rfl
    rw [he, h1]
    simp [mergeGo]
  · rw [hsplit2, appendLoop_skip_pre pre2 hpre2 10 (u1 : Int) _,
      appendLoop_cons_marker _ _ _ _ hm2]
    have h9 : appendLoop false 9 (u1 : Int) (k2 ++ body2)
        = appendLoop false 0 (u1 : Int) body2 := by
      rw [← hk2]
      exact appendLoop_skipN k2 _ body2
    rw [h9]
    have hc : ((1 : Nat) : Int) + u1 - 1 = (u1 : Int) := by push_cast; ring
    obtain ⟨-, h2⟩ := appendLoop_body u1 body2 1 hbody2
    rw [hc] at h2
    exact h2

/-- Witness for C4 on concrete two-fragment data: base metadata records 5,
second body numbered 1, 2; the appended block carries 6, 7. -/
theorem C4_witness :
    (merge_collision_files [wf1, wf2]
        = some (wf1.collision ++ (appendLoop true 10 ((5 : Nat) : Int) wf2.collision).2) ∧
      (appendLoop true 10 ((5 : Nat) : Int) wf2.collision).2.filterMap ionSearch
        = (wBody2.filterMap ionSearch).map (fun t => t + 5)) ∧
    (wBody2.filterMap ionSearch).map (fun t => t + 5) = [6, 7] :=
  ⟨C4_merge_offset wf1 wf2 5 [] markerChars fillerLines wBody1 [] markerChars fillerLines wBody2
      (by decide) rfl (by simp) (by decide) (by decide) (by decide)
      rfl (by simp) (by decide) (by decide) (by decide),
    by decide⟩

/-- C1 (amended): with the base fragment's metadata recording `u0` and each
additional fragment `Fj` well-formed with exactly `uj` sequence-number lines
numbered `1..uj`, the merged file is the base followed by one block per
additional fragment, and block `j`'s embedded numbers are
`offset+1, ..., offset+uj` where `offset = u0 + u1 + ... + u(j-1)`. -/
theorem C1_cumulative_offsets (f0 f1 : Fragment) (fs : List Fragment)
    (us : List Nat) (u0 : Nat)
    (h0 : get_total_ions f0.trimIn = (u0 : Int))
    (hall : List.Forall₂ FragOK (f1 :: fs) us) :
    merge_collision_files (f0 :: f1 :: fs)
        = some (f0.collision ++ (mergeBlocks (u0 : Int) (f1 :: fs)).flatten) ∧
    (mergeBlocks (u0 : Int) (f1 :: fs)).length = us.length ∧
    ∀ (j : Nat) (bj : List (List Char)) (uj : Nat),
      (mergeBlocks (u0 : Int) (f1 :: fs)).get? j = some bj → us.get? j = some uj →
      bj.filterMap ionSearch = List.range' (u0 + (us.take j).sum + 1) uj := by
  obtain ⟨hlen, hidx⟩ := mergeBlocks_spec (f1 :: fs) us hall u0
  refine ⟨?_, hlen, hidx⟩
  have he : merge_collision_files (f0 :: f1 :: fs)
      = some (f0.collision ++ mergeGo (get_total_ions f0.trimIn) (f1 :: fs)) := rfl
  rw [he, h0, mergeGo_eq_blocks]

/-- Witness for the amended C1 on three concrete fragments (`u0 = 2`,
additional unit counts `[1, 1]`): the second appended block carries exactly
the number `2 + 1 + 1 = 4`. -/
theorem C1_witness :
    (merge_collision_files [cf0, cf1, cf2]
        = some (cf0.collision ++ (mergeBlocks ((2 : Nat) : Int) [cf1, cf2]).flatten) ∧
      (mergeBlocks ((2 : Nat) : Int) [cf1, cf2]).length = ([1, 1] : List Nat).length) ∧
    ["³ For Ion 0000004 d".toList].filterMap ionSearch
        = List.range' (2 + (([1, 1] : List Nat).take 1).sum + 1) 1 := by
  have hall : List.Forall₂ FragOK [cf1, cf2] [1, 1] := by
    refine List.Forall₂.cons ?_ (List.Forall₂.cons ?_ List.Forall₂.nil)
    · exact ⟨[], markerChars, fillerLines, ["³ For Ion 0000001 c".toList],
        rfl, by simp, by decide, by decide, by decide, by decide⟩
    · exact ⟨[], markerChars, fillerLines, ["³ For Ion 0000001 d".toList],
        rfl, by simp, by decide, by decide, by decide, by decide⟩
  obtain ⟨h1, h2, h3⟩ := C1_cumulative_offsets cf0 cf1 [cf2] [1, 1] 2 (by decide) hall
  exact ⟨⟨h1, h2⟩, h3 1 ["³ For Ion 0000004 d".toList] 1 (by decide) (by decide)⟩

/-- C1 counterexample: with recorded unit counts `u0 = 2` and `u1 = 5` but
only one sequence-number line in `F1`'s body, the code's offset for `F2` is
`u0 + (matched lines of F1) = 3`, not `u0 + u1 = 7`: `F2`'s contributed block
starts at 4, whereas the claim requires `u0 + u1 + 1 = 8`.  The merge never
reads the later fragments' metadata files. -/
theorem C1_counterexample :
    get_total_ions cf0.trimIn = 2 ∧ get_total_ions cf1.trimIn = 5 ∧
    (merge_collision_files [cf0, cf1, cf2]).map (fun l => l.filterMap ionSearch)
        = some [1, 2, 3, 4] ∧
    ¬ (4 : Nat) = 2 + 5 + 1 :=
  ⟨by decide, by decide, by decide, by decide⟩

/-! ## Record Extractor claims -/

lemma extractLine_some_some (line : List Char) (p : ℚ × ℚ × ℚ)
    (h : extractLine line = some (some p)) :
    claimTriple line = some (scaleTriple p) ∧
    (cascadeMark.isSuffixOf line || dStart.isPrefixOf line) = true := by
  unfold extractLine at h
  unfold claimTriple
  by_cases hc : cascadeMark.isSuffixOf line = true
  · rw [if_pos hc] at h
    rw [if_pos hc]
    cases hct : cascadeTokensTriple line with
    | none => rw [hct] at h; simp at h
    | some q =>
      rw [hct] at h
      simp only [Option.map_some', Option.some.injEq] at h
      subst h
      simp [hc]
  · rw [if_neg hc] at h
    rw [if_neg hc]
    by_cases hd : dStart.isPrefixOf line = true
    · rw [if_pos hd] at h
      rw [if_pos hd]
      cases hdt : dTokensTriple line with
      | none => rw [hdt] at h; simp at h
      | some q =>
        rw [hdt] at h
        simp only [Option.map_some', Option.some.injEq] at h
        subst h
        simp [hd]
    · rw [if_neg hd] at h
      simp at h

lemma extractLine_some_none (line : List Char)
    (h : extractLine line = some none) :
    claimTriple line = none ∧
    (cascadeMark.isSuffixOf line || dStart.isPrefixOf line) = false := by
  unfold extractLine at h
  unfold claimTriple
  by_cases hc : cascadeMark.isSuffixOf line = true
  · rw [if_pos hc] at h
    exfalso
    cases hct : cascadeTokensTriple line with
    | none => rw [hct] at h; simp at h
    | some q => rw [hct] at h; simp at h
  · rw [if_neg hc] at h
    by_cases hd : dStart.isPrefixOf line = true
    · rw [if_pos hd] at h
      exfalso
      cases hdt : dTokensTriple line with
      | none => rw [hdt] at h; simp at h
      | some q => rw [hdt] at h; simp at h
    · rw [if_neg hc, if_neg hd]
      simp [hc, hd]

lemma generate_positions_spec :
    ∀ (lines : List (List Char)), (∀ line ∈ lines, extractLine line ≠ none) →
    ∃ ps, generate_positions lines = some ps ∧
      ps.map scaleTriple = lines.filterMap claimTriple ∧
      ps.length = lines.countP (fun l₀ => cascadeMark.isSuffixOf l₀ || dStart.isPrefixOf l₀) := by
  intro lines
  induction lines with
  | nil => intro hok; exact ⟨[], rfl, rfl, rfl⟩
  | cons line ls ih =>
    intro hok
    obtain ⟨ps, hps, hmap, hcnt⟩ := ih (fun l₀ hl => hok l₀ (List.mem_cons_of_mem line hl))
    have hline := hok line (List.mem_cons_self line ls)
    cases hres : extractLine line with
    | none => exact absurd hres hline
    | some res =>
      cases res with
      | none =>
        obtain ⟨hct, hmatch⟩ := extractLine_some_none line hres
        refine ⟨ps, ?_, ?_, ?_⟩
        · rw [generate_positions, hres, hps]
        · rw [hmap, List.filterMap_cons, hct]
        · rw [hcnt, List.countP_cons, hmatch]
          simp
      | some p =>
        obtain ⟨hct, hmatch⟩ := extractLine_some_some line p hres
        refine ⟨p :: ps, ?_, ?_, ?_⟩
        · rw [generate_positions, hres, hps]
          rfl
        · rw [List.map_cons, hmap, List.filterMap_cons, hct]
        · rw [List.length_cons, hcnt, List.countP_cons, hmatch]
          simp

/-- C9: on a merged file whose matching lines all parse, the Record
Extractor returns exactly one scaled (`/ 10`) coordinate triple per
cascade-start line (from its three fixed `³`-token positions) and per
fixed-prefix line (from its three fixed whitespace-token positions), in
file order, ignoring all other lines: exactly as many triples as matching
lines. -/
theorem C9_record_extractor (lines : List (List Char))
    (hok : ∀ line ∈ lines, extractLine line ≠ none) :
    (generate_numpy_arrays lines).map (fun r => r.collisions)
        = some (lines.filterMap claimTriple) ∧
    (lines.filterMap claimTriple).length
        = lines.countP (fun l₀ => cascadeMark.isSuffixOf l₀ || dStart.isPrefixOf l₀) := by
  obtain ⟨ps, hps, hmap, hcnt⟩ := generate_positions_spec lines hok
  constructor
  · rw [generate_numpy_arrays, hps]
    simp only [Option.map_some', Option.some.injEq]
    exact hmap
  · rw [← hmap, List.length_map, hcnt]

/-- Witness for C9: a file with exactly one matching cascade-start line and
one matching fixed-prefix line yields exactly two triples, scaled by 10 from
their raw token values (1, 2, 3 and 7, 8, 9). -/
theorem C9_witness :
    ((generate_numpy_arrays [c9casc, c9d, c9plain]).map (fun r => r.collisions)
        = some ([c9casc, c9d, c9plain].filterMap claimTriple) ∧
      ([c9casc, c9d, c9plain].filterMap claimTriple).length = 2) ∧
    [c9casc, c9d, c9plain].filterMap claimTriple
        = [scaleTriple (1, 2, 3), scaleTriple (7, 8, 9)] := by
  have h := C9_record_extractor [c9casc, c9d, c9plain] (by decide)
  exact ⟨⟨h.1, h.2.trans (by decide)⟩, rfl⟩

/-- C10: the array serialized to `collision.dat.npy` holds the raw token
values, while the `collisions` array returned in the result holds those
values divided by 10, entry for entry. -/
theorem C10_saved_scaled (lines : List (List Char)) (r : ExtractResult)
    (h : generate_numpy_arrays lines = some r) :
    generate_positions lines = some r.saved ∧
    r.collisions.length = r.saved.length ∧
    ∀ (i : Nat) (p : ℚ × ℚ × ℚ), r.saved.get? i = some p →
      r.collisions.get? i = some (p.1 / 10, p.2.1 / 10, p.2.2 / 10) := by
  unfold generate_numpy_arrays at h
  cases hg : generate_positions lines with
  | none => rw [hg] at h; simp at h
  | some ps =>
    rw [hg] at h
    simp only [Option.map_some', Option.some.injEq] at h
    subst h
    refine ⟨rfl, by simp, ?_⟩
    intro i p hp
    simp only [List.get?_map, hp, Option.map_some']
    rfl

/-- Witness for C10 on the single cascade line: raw `(1, 2, 3)` is saved,
`(1/10, 2/10, 3/10)` is returned. -/
theorem C10_witness :
    generate_positions [c9casc] = some c10r.saved ∧
    c10r.collisions.get? 0
        = some (((1 : ℚ)) / 10, ((2 : ℚ)) / 10, ((3 : ℚ)) / 10) :=
  ⟨(C10_saved_scaled [c9casc] c10r rfl).1,
   (C10_saved_scaled [c9casc] c10r rfl).2.2 0 (1, 2, 3) rfl⟩

end PySrim
